import Mathlib

/-!
Verification of `martishin/async-file-copier` (`src/async_file_copier/processing.py`
and its driver `cli.py`) against its specification.

Modelling conventions (shallow embedding):
* A filesystem path is a list of path components (`FPath`), relative to an
  arbitrary root.  Python's `pathlib.Path.__truediv__` drops empty components
  (in Python, `Path("d") / "" == Path("d")`), which `pjoin` reproduces; the joined
  component strings produced by this program never contain a path separator.
* The regex classes `\s` and `\w` of `re.sub` and `str.lower` are embedded
  as per-character predicates/maps (`isSpaceChar`, `isWordChar`,
  `lowerChars`).  The model is exact on ASCII code points and on U+0130
  ('İ', whose one-to-two lowercase expansion to 'i' + combining dot above
  U+0307 breaks the normalizer's idempotence in Python and is reproduced
  here); Python's Unicode classes cover further non-ASCII characters, so
  universally quantified character-level statements below are confined to
  ASCII inputs, on which model and program agree character-for-character.
* The filesystem is a value `FS`: an association list of files (path ×
  content, later entries shadowed by earlier ones) plus a list of existing
  directories.  `aiofiles` reads/writes and `FPath.mkdir` become pure state
  transformers that additionally emit an `Effect` trace (writes, directory
  creations, log lines), so that "performs no write" is a statement about the
  trace, not only about the final state.
* `asyncio.gather` over the collected coroutines is modelled by sequential
  execution (`run_copies`, `run_writes`).  In the source, all existence checks
  of `copy_code_and_task_files` happen while the task list is being built,
  before any copy coroutine runs, which the model preserves: `copy_tasks` is
  computed against the state at entry.
-/

/-! ### Paths -/

abbrev FPath := List String

/-- Model of `pathlib`'s `/` for a single separator-free component:
joining with the empty string leaves the path unchanged. -/
def pjoin (p : FPath) (s : String) : FPath :=
  if s = "" then p else p ++ [s]

/-- Model of `PurePath.name` (final component; `""` for the empty path). -/
def pname (p : FPath) : String := p.getLast?.getD ""

/-- Model of `PurePath.parent` (drop the final component). -/
def pparent (p : FPath) : FPath := p.dropLast

/-- Rendering of a path for log messages (models `str(FPath)`). -/
def pstr (p : FPath) : String := String.intercalate "/" p

/-- Index of the last `.` in a name, as in Python's `str.rfind(".")`
(`none` when there is no dot). -/
def rfindDot : List Char → Option Nat
  | [] => none
  | c :: cs =>
    match rfindDot cs with
    | some i => some (i + 1)
    | none => if c == '.' then some 0 else none

/-- Model of `PurePath.suffix` restricted to the final component: the part
from the last dot, provided that dot is neither the first nor the last
character of the name. -/
def nameSuffix (l : List Char) : List Char :=
  match rfindDot l with
  | none => []
  | some i => if 0 < i ∧ i < l.length - 1 then l.drop i else []

/-- Model of `PurePath.with_suffix`: replace (or append, when there is no
suffix) the extension of the final component.  Python raises `ValueError` on a
path with an empty name; the model returns the empty path there (no caller in
the program reaches that case with a well-formed destination root). -/
def with_suffix (p : FPath) (ext : String) : FPath :=
  match p.getLast? with
  | none => []
  | some n =>
    let l := n.data
    let suf := nameSuffix l
    p.dropLast ++ [String.mk (l.take (l.length - suf.length)) ++ ext]

/-- `child` is a direct child of `parent`: it extends it by exactly one
non-empty component. -/
def isDirectChild (child parent : FPath) : Bool :=
  match child.getLast? with
  | none => false
  | some s => !(s == "") && child.dropLast == parent

/-! ### `to_snake_case` (processing.py lines 143–150) -/

/-- Model of the regex class `\w` (and of the redundant extra `_` in
`[^\w_]`): exact on ASCII (digits, letters, underscore) and on the two
non-ASCII code points exercised below — U+0130 ('İ') is a letter and hence
a word character in Python, while U+0307 (combining dot above, category Mn)
is not.  Other non-ASCII alphanumerics that Python's Unicode `\w` matches
are outside the modelled domain and classified as non-word, so universal
statements using this predicate are restricted to ASCII inputs. -/
def isWordChar (c : Char) : Bool :=
  decide ((48 ≤ c.toNat ∧ c.toNat ≤ 57) ∨ (65 ≤ c.toNat ∧ c.toNat ≤ 90) ∨
    (97 ≤ c.toNat ∧ c.toNat ≤ 122) ∨ c = '_' ∨ c.toNat = 304)

/-- Model of the regex class `\s`: exact on ASCII (space, tab, newline,
carriage return, vertical tab, form feed) and on U+0130/U+0307 (neither is
whitespace).  Python's Unicode `\s` also matches non-ASCII whitespace such
as U+00A0, outside the modelled domain. -/
def isSpaceChar (c : Char) : Bool :=
  decide (c.toNat = 32 ∨ c.toNat = 9 ∨ c.toNat = 10 ∨ c.toNat = 13 ∨
    c.toNat = 11 ∨ c.toNat = 12)

/-- Per-character model of `str.lower`, returning the (possibly longer)
lowercase expansion: exact on ASCII, and includes Python's one-to-two
mapping `'İ'.lower() == 'i' + U+0307` (code points 304 → 105, 775).  Other
non-ASCII characters are left unchanged (outside the modelled domain). -/
def lowerChars (c : Char) : List Char :=
  if 65 ≤ c.toNat ∧ c.toNat ≤ 90 then [Char.ofNat (c.toNat + 32)]
  else if c.toNat = 304 then [Char.ofNat 105, Char.ofNat 775]
  else [c]

/-- Model of `re.sub(X+, r, s)` for a single-character class `X`: replace
every maximal run of characters satisfying `p` with the single character `r`.
The flag records whether the previous character was part of a run. -/
def collapseRuns (p : Char → Bool) (r : Char) : Bool → List Char → List Char
  | _, [] => []
  | inRun, c :: cs =>
    if p c then
      if inRun then collapseRuns p r true cs
      else r :: collapseRuns p r true cs
    else c :: collapseRuns p r false cs

/-- `to_snake_case` from processing.py: drop commas, collapse whitespace
runs to `_`, collapse hyphen runs to `_`, drop non-word characters,
lowercase. -/
def to_snake_case (name : String) : String :=
  let s1 := name.data.filter (fun c => !(c == ','))
  let s2 := collapseRuns isSpaceChar '_' false s1
  let s3 := collapseRuns (fun c => c == '-') '_' false s2
  let s4 := s3.filter isWordChar
  String.mk (s4.flatMap lowerChars)

example : to_snake_case "Accessing Values in a Hash Map" = "accessing_values_in_a_hash_map" := by decide
example : to_snake_case "Module-Test" = "module_test" := by decide
example : to_snake_case "!!!" = "" := by decide
example : with_suffix ["d", "a", "b", "c"] ".rs" = ["d", "a", "b", "c.rs"] := by decide
example : with_suffix ["d", "a.b"] ".rs" = ["d", "a.rs"] := by decide

/-! ### `PathMapping` and the sort used by `create_mod_files` -/

/-- `PathMapping` from processing.py: an immutable `(source, dest)` pair of
paths with by-value equality (`@dataclass(frozen=True)`). -/
structure PathMapping where
  source : FPath
  dest : FPath
deriving DecidableEq, Repr

/-- Python string `<` on the character lists: lexicographic by Unicode code
point, a strict prefix being smaller. -/
def charsLt : List Char → List Char → Bool
  | [], [] => false
  | [], _ :: _ => true
  | _ :: _, [] => false
  | a :: as, b :: bs =>
    if a.toNat < b.toNat then true
    else if b.toNat < a.toNat then false
    else charsLt as bs

/-- Python string `<`. -/
def strLt (a b : String) : Bool := charsLt a.data b.data

/-- `a ≤ b` in the order induced by `strLt`. -/
def strLe (a b : String) : Bool := !(strLt b a)

/-- `PathMapping.__lt__`: compare the final components of the `dest` paths
(Python string `<`, i.e. lexicographic on code points). -/
def pmLt (a b : PathMapping) : Bool := strLt (pname a.dest) (pname b.dest)

/-- Python `list.__lt__` on lists of `PathMapping`: skip equal heads, then
compare by `PathMapping.__lt__`; a strict prefix is smaller. -/
def pmListLt : List PathMapping → List PathMapping → Bool
  | [], [] => false
  | [], _ :: _ => true
  | _ :: _, [] => false
  | a :: as, b :: bs => if a = b then pmListLt as bs else pmLt a b

/-- Python tuple comparison on the `(PathMapping, list)` items of the
level-2 dictionary, as used by `sorted(d.items())`: compare the keys unless
they are equal by value, then compare the value lists. -/
def itemLt (a b : PathMapping × List PathMapping) : Bool :=
  if a.1 = b.1 then pmListLt a.2 b.2 else pmLt a.1 b.1

/-- Insert `x` into an already-sorted accumulator, before the first strictly
greater element (so after any element tied with `x`). -/
def insertSorted (lt : α → α → Bool) (x : α) : List α → List α
  | [] => [x]
  | y :: ys => if lt x y then x :: y :: ys else y :: insertSorted lt x ys

/-- Stable sort with a strict comparator; Python's `sorted` is the stable
sort determined by `__lt__`, and for a strict weak order any stable sort
computes the same list. -/
def sortByLt (lt : α → α → Bool) (l : List α) : List α :=
  l.foldl (fun acc x => insertSorted lt x acc) []

/-- `DirectoriesStructure` from processing.py.  The Python `dict`s preserve
insertion order and, within one run, never see two equal keys (keys embed
distinct source paths), so they are modelled as association lists. -/
structure DirectoriesStructure where
  dirs : List (PathMapping × List (PathMapping × List PathMapping))
deriving DecidableEq, Repr

/-- All level-3 (leaf) mappings of a structure, in iteration order. -/
def leaves (ds : DirectoriesStructure) : List PathMapping :=
  ds.dirs.flatMap (fun x => x.2.flatMap (fun y => y.2))

/-! ### Filesystem state and effect traces -/

/-- Filesystem snapshot: existing files with contents (earlier entries
shadow later ones) and existing directories. -/
structure FS where
  files : List (FPath × String)
  dirs : List FPath
deriving DecidableEq, Repr

/-- Observable actions of a run: file writes, directory creations and log
lines.  Log payloads follow the f-strings of the source. -/
inductive Effect where
  | write (p : FPath) (content : String)
  | mkdir (p : FPath)
  | logInfo (msg : String)
  | logWarn (msg : String)
deriving DecidableEq, Repr

/-- The file writes of a trace. -/
def writesOf (effs : List Effect) : List (FPath × String) :=
  effs.filterMap (fun e =>
    match e with
    | .write p c => some (p, c)
    | _ => none)

/-- The directory creations of a trace. -/
def mkdirsOf (effs : List Effect) : List FPath :=
  effs.filterMap (fun e =>
    match e with
    | .mkdir p => some p
    | _ => none)

/-- `file_exists` from processing.py (`Path.exists()`): true for an existing
file or directory. -/
def file_exists (fs : FS) (p : FPath) : Bool :=
  fs.files.any (fun e => e.1 == p) || fs.dirs.any (fun d => d == p)

/-- Content of the file at `p` (first matching entry); `Path.open` on a
missing path is never reached by the program (`copy_file` checks first). -/
def read_file (fs : FS) (p : FPath) : String :=
  ((fs.files.find? (fun e => e.1 == p)).map (fun e => e.2)).getD ""

/-- Create or truncate-and-write the file at `p` (`open(mode="w")`). -/
def write_file (fs : FS) (p : FPath) (content : String) : FS :=
  { fs with files := (p, content) :: fs.files }

/-- All ancestor segments of a path, the path itself included. -/
def initSegs : FPath → List FPath
  | [] => [[]]
  | x :: xs => [] :: (initSegs xs).map (fun q => x :: q)

/-- `mkdir_async` / `Path.mkdir(parents=True, exist_ok=True)`: the directory
and all its ancestors come to exist. -/
def mkdir_rec (fs : FS) (p : FPath) : FS :=
  { fs with dirs := initSegs p ++ fs.dirs }

/-- `copy_file` from processing.py (lines 163–177): skip with a warning when
the source is missing; in dry-run mode only log; otherwise create the
destination's parents, read the source and write the destination. -/
def copy_file (fs : FS) (source_file dest_file : FPath) (dry_run : Bool) :
    FS × List Effect :=
  if file_exists fs source_file then
    if dry_run then
      (fs, [.logInfo ("[DRY RUN] Would copy " ++ pstr source_file ++ " to " ++ pstr dest_file)])
    else
      let fs1 := mkdir_rec fs (pparent dest_file)
      let content := read_file fs source_file
      (write_file fs1 dest_file content,
        [.mkdir (pparent dest_file), .write dest_file content,
         .logInfo ("Copied " ++ pstr source_file ++ " to " ++ pstr dest_file)])
  else
    (fs, [.logWarn ("File not found: " ++ pstr source_file)])

/-- `write_to_file` from processing.py (lines 180–188). -/
def write_to_file (fs : FS) (dest_file : FPath) (content : String) (dry_run : Bool) :
    FS × List Effect :=
  if dry_run then
    (fs, [.logInfo ("[DRY RUN] Would write to " ++ pstr dest_file ++ " file, content:\n" ++ content)])
  else
    (write_file (mkdir_rec fs (pparent dest_file)) dest_file content,
      [.mkdir (pparent dest_file), .write dest_file content])

/-- Sequential execution of a batch of `copy_file` coroutines
(`asyncio.gather`; the copies touch disjoint destinations in the intended
use, so ordering is immaterial to the properties proved here). -/
def run_copies (fs : FS) (ts : List (FPath × FPath)) (dry_run : Bool) :
    FS × List Effect :=
  match ts with
  | [] => (fs, [])
  | (s, d) :: rest =>
    let r1 := copy_file fs s d dry_run
    let r2 := run_copies r1.1 rest dry_run
    (r2.1, r1.2 ++ r2.2)

/-- Sequential execution of a batch of `write_to_file` coroutines. -/
def run_writes (fs : FS) (ws : List (FPath × String)) (dry_run : Bool) :
    FS × List Effect :=
  match ws with
  | [] => (fs, [])
  | (p, c) :: rest =>
    let r1 := write_to_file fs p c dry_run
    let r2 := run_writes r1.1 rest dry_run
    (r2.1, r1.2 ++ r2.2)

/-! ### Origin tree and `collect_dirs_structure` (processing.py lines 30–64) -/

/-- `EXCLUDED_FOLDERS` from processing.py. -/
def EXCLUDED_FOLDERS : List String := [".cargo", ".idea", "target"]

/-- A directory entry at level 3 of the origin tree, as seen by
`iterdir()`: its name and whether it is a directory. -/
structure Entry3 where
  name : String
  isDir : Bool
deriving DecidableEq, Repr

/-- A directory entry at level 2 of the origin tree, with its children. -/
structure Entry2 where
  name : String
  isDir : Bool
  children : List Entry3
deriving DecidableEq, Repr

/-- A directory entry at level 1 of the origin tree, with its children. -/
structure Entry1 where
  name : String
  isDir : Bool
  children : List Entry2
deriving DecidableEq, Repr

/-- `collect_dirs_structure` from processing.py: three nested `iterdir()`
passes filtered to directories (the first level also filtered against
`EXCLUDED_FOLDERS`); `source` keeps the original path, `dest` joins the
parent's `dest` with the normalized name. -/
def collect_dirs_structure (origin_dir dest_dir : FPath) (entries : List Entry1) :
    DirectoriesStructure :=
  let first_level_dirs :=
    entries.filter (fun d => d.isDir && !(EXCLUDED_FOLDERS.contains d.name))
  ⟨first_level_dirs.map (fun d1 =>
    let m1 : PathMapping :=
      ⟨pjoin origin_dir d1.name, pjoin dest_dir (to_snake_case d1.name)⟩
    (m1, (d1.children.filter (fun d => d.isDir)).map (fun d2 =>
      let m2 : PathMapping :=
        ⟨pjoin m1.source d2.name, pjoin m1.dest (to_snake_case d2.name)⟩
      (m2, (d2.children.filter (fun d => d.isDir)).map (fun d3 =>
        ⟨pjoin m2.source d3.name, pjoin m2.dest (to_snake_case d3.name)⟩)))))⟩

/-! ### `copy_code_and_task_files` (processing.py lines 67–91) -/

/-- The task-building loop of `copy_code_and_task_files`: for each leaf, the
`src/main.rs` copy is scheduled when the `.rs` destination does not exist,
and the `task.md` copy is scheduled under the very same check of the `.rs`
destination (`dest_main_file`, lines 83 and 88 of the source).  All checks
run against the state at entry: no scheduled coroutine runs before the
`asyncio.gather` that follows the loop. -/
def copy_tasks (fs : FS) (ds : DirectoriesStructure) : List (FPath × FPath) :=
  ds.dirs.flatMap (fun x =>
    x.2.flatMap (fun y =>
      y.2.flatMap (fun third_level_dir =>
        let source_main_file := pjoin (pjoin third_level_dir.source "src") "main.rs"
        let dest_main_file := with_suffix third_level_dir.dest ".rs"
        let source_task_file := pjoin third_level_dir.source "task.md"
        let dest_task_file := with_suffix third_level_dir.dest ".md"
        (if !(file_exists fs dest_main_file) then [(source_main_file, dest_main_file)] else []) ++
        (if !(file_exists fs dest_main_file) then [(source_task_file, dest_task_file)] else []))))

/-- `copy_code_and_task_files`: build the task list, then run the batch. -/
def copy_code_and_task_files (fs : FS) (ds : DirectoriesStructure) (dry_run : Bool) :
    FS × List Effect :=
  run_copies fs (copy_tasks fs ds) dry_run

/-! ### `create_mod_files` (processing.py lines 94–112) -/

/-- One `pub mod … \x7b … \x7d` block of a `mod.rs` file: the level-2
destination name, then one indented line per level-3 mapping in sorted
order. -/
def mod_block (m2 : PathMapping) (l3s : List PathMapping) : String :=
  "pub mod " ++ pname m2.dest ++ " \x7b\n" ++
  String.intercalate "\n"
    ((sortByLt pmLt l3s).map (fun m3 => "    pub mod " ++ pname m3.dest ++ ";")) ++
  "\n\x7d"

/-- The content of one `mod.rs` file: the blocks of the sorted level-2
items, separated by a blank line (`"\n\n".join`). -/
def mod_content (l2s : List (PathMapping × List PathMapping)) : String :=
  String.intercalate "\n\n" ((sortByLt itemLt l2s).map (fun x => mod_block x.1 x.2))

/-- `create_mod_files`: one `write_to_file` per level-1 mapping, at
`dest / "mod.rs"`, run as a batch. -/
def create_mod_files (fs : FS) (ds : DirectoriesStructure) (dry_run : Bool) :
    FS × List Effect :=
  run_writes fs (ds.dirs.map (fun x => (pjoin x.1.dest "mod.rs", mod_content x.2))) dry_run

/-! ### The driver (`cli.run`) -/

/-- The pipeline as run by `cli.run`: collect the structure, create the
destination root (or log, in dry-run mode), copy the leaf files, write the
`mod.rs` files.  (`create_main_file` is commented out in the driver.) -/
def run_pipeline (origin_dir dest_dir : FPath) (entries : List Entry1)
    (fs : FS) (dry_run : Bool) : FS × List Effect :=
  let ds := collect_dirs_structure origin_dir dest_dir entries
  let r0 : FS × List Effect :=
    if dry_run then
      (fs, [.logInfo ("[DRY RUN] Would create destination directory " ++ pstr dest_dir)])
    else (mkdir_rec fs dest_dir, [.mkdir dest_dir])
  let r1 := copy_code_and_task_files r0.1 ds dry_run
  let r2 := create_mod_files r1.1 ds dry_run
  (r2.1, r0.2 ++ r1.2 ++ r2.2)

/-! ### Character-level facts about `to_snake_case` -/

theorem toNat_charOfNat_of_lt {n : Nat} (h : n < 55296) : (Char.ofNat n).toNat = n := by
  have hv : n.isValidChar := Or.inl h
  simp [Char.ofNat, hv, Char.ofNatAux, Char.toNat, UInt32.toNat, BitVec.toNat_ofNatLt]

/-- The characters `to_snake_case` can output: digits, lowercase letters,
underscore. -/
def goodChar (c : Char) : Prop :=
  (48 ≤ c.toNat ∧ c.toNat ≤ 57) ∨ (97 ≤ c.toNat ∧ c.toNat ≤ 122) ∨ c = '_'

/-- On ASCII word characters (the 304 disjunct being excluded by the ASCII
bound) the lowercase expansion is a single good character. -/
theorem lowerChars_ascii_word {c : Char} (hw : isWordChar c = true)
    (ha : c.toNat ≤ 127) : ∀ d ∈ lowerChars c, goodChar d := by
  intro d hd
  have h' := of_decide_eq_true hw
  have h304 : ¬ c.toNat = 304 := by omega
  rcases h' with h' | h' | h' | h' | h'
  · rw [lowerChars, if_neg (by omega), if_neg h304] at hd
    rw [List.mem_singleton.mp hd]
    exact Or.inl h'
  · rw [lowerChars, if_pos h'] at hd
    rw [List.mem_singleton.mp hd]
    have hn : (Char.ofNat (c.toNat + 32)).toNat = c.toNat + 32 :=
      toNat_charOfNat_of_lt (by omega)
    exact Or.inr (Or.inl (by omega))
  · rw [lowerChars, if_neg (by omega), if_neg h304] at hd
    rw [List.mem_singleton.mp hd]
    exact Or.inr (Or.inl h')
  · rw [lowerChars, if_neg (by subst h'; decide), if_neg h304] at hd
    rw [List.mem_singleton.mp hd, h']
    exact Or.inr (Or.inr rfl)
  · exact absurd h' (by omega)

theorem goodChar.word {c : Char} (h : goodChar c) : isWordChar c = true := by
  rcases h with h | h | h
  · exact decide_eq_true (Or.inl h)
  · exact decide_eq_true (Or.inr (Or.inr (Or.inl h)))
  · subst h; decide

theorem goodChar.toNat_cases {c : Char} (h : goodChar c) :
    (48 ≤ c.toNat ∧ c.toNat ≤ 57) ∨ (97 ≤ c.toNat ∧ c.toNat ≤ 122) ∨ c.toNat = 95 := by
  rcases h with h | h | h
  · exact Or.inl h
  · exact Or.inr (Or.inl h)
  · subst h; exact Or.inr (Or.inr rfl)

theorem goodChar.not_space {c : Char} (h : goodChar c) : isSpaceChar c = false := by
  have := h.toNat_cases
  exact decide_eq_false (by omega)

theorem goodChar.ne_of_toNat {c : Char} (h : goodChar c) {d : Char}
    (hd : d.toNat < 48 ∨ (57 < d.toNat ∧ d.toNat < 95) ∨ (95 < d.toNat ∧ d.toNat < 97) ∨ 122 < d.toNat) :
    c ≠ d := by
  have := h.toNat_cases
  intro he
  subst he
  omega

theorem goodChar.not_comma {c : Char} (h : goodChar c) : (c == ',') = false := by
  have : c ≠ ',' := h.ne_of_toNat (Or.inl (by decide))
  simpa using this

theorem goodChar.not_hyphen {c : Char} (h : goodChar c) : (c == '-') = false := by
  have : c ≠ '-' := h.ne_of_toNat (Or.inl (by decide))
  simpa using this

theorem goodChar.not_dot {c : Char} (h : goodChar c) : c ≠ '.' :=
  h.ne_of_toNat (Or.inl (by decide))

theorem goodChar.lowerChars_fixed {c : Char} (h : goodChar c) :
    lowerChars c = [c] := by
  have := h.toNat_cases
  unfold lowerChars
  rw [if_neg (by omega), if_neg (by omega)]

theorem goodChar.ascii {c : Char} (h : goodChar c) : c.toNat ≤ 127 := by
  have := h.toNat_cases
  omega

/-- A character of a collapsed list is the replacement character or one of
the original characters. -/
theorem mem_collapseRuns {p : Char → Bool} {r : Char} {c : Char} :
    ∀ {b : Bool} {l : List Char}, c ∈ collapseRuns p r b l → c = r ∨ c ∈ l := by
  intro b l
  induction l generalizing b with
  | nil => intro h; cases h
  | cons a as ih =>
    intro h
    simp only [collapseRuns] at h
    by_cases hp : p a = true
    · rw [if_pos hp] at h
      by_cases hb : b = true
      · rw [if_pos hb] at h
        rcases ih h with h' | h'
        · exact Or.inl h'
        · exact Or.inr (List.mem_cons_of_mem a h')
      · rw [if_neg hb] at h
        rcases List.mem_cons.mp h with rfl | h'
        · exact Or.inl rfl
        · rcases ih h' with h'' | h''
          · exact Or.inl h''
          · exact Or.inr (List.mem_cons_of_mem a h'')
    · rw [if_neg hp] at h
      rcases List.mem_cons.mp h with rfl | h'
      · exact Or.inr (List.mem_cons_self c as)
      · rcases ih h' with h'' | h''
        · exact Or.inl h''
        · exact Or.inr (List.mem_cons_of_mem a h'')

/-- Every character of `to_snake_case`'s output on an ASCII input is a
lowercase word character. -/
theorem to_snake_case_good (s : String) (hascii : ∀ c ∈ s.data, c.toNat ≤ 127) :
    ∀ c ∈ (to_snake_case s).data, goodChar c := by
  intro c hc
  unfold to_snake_case at hc
  simp only [String.data] at hc
  rw [List.mem_flatMap] at hc
  obtain ⟨b, hb, hcb⟩ := hc
  have hword : isWordChar b = true := List.of_mem_filter hb
  have hb127 : b.toNat ≤ 127 := by
    rcases mem_collapseRuns (List.mem_of_mem_filter hb) with rfl | hmem2
    · decide
    · rcases mem_collapseRuns hmem2 with rfl | hmem1
      · decide
      · exact hascii b (List.mem_of_mem_filter hmem1)
  exact lowerChars_ascii_word hword hb127 c hcb

theorem collapseRuns_id {p : Char → Bool} {r : Char} {l : List Char}
    (h : ∀ c ∈ l, p c = false) : collapseRuns p r false l = l := by
  induction l with
  | nil => rfl
  | cons c cs ih =>
    have hc := h c (List.mem_cons_self c cs)
    have hstep : collapseRuns p r false (c :: cs) = c :: collapseRuns p r false cs := by
      simp [collapseRuns, hc]
    rw [hstep, ih fun d hd => h d (List.mem_cons_of_mem c hd)]

theorem filter_eq_self_of_true {p : Char → Bool} {l : List Char}
    (h : ∀ c ∈ l, p c = true) : l.filter p = l := by
  induction l with
  | nil => rfl
  | cons c cs ih =>
    rw [List.filter_cons_of_pos (h c (List.mem_cons_self c cs)),
      ih fun d hd => h d (List.mem_cons_of_mem c hd)]

theorem flatMap_id_of_fixed {l : List Char}
    (h : ∀ c ∈ l, lowerChars c = [c]) : l.flatMap lowerChars = l := by
  induction l with
  | nil => rfl
  | cons c cs ih =>
    rw [List.flatMap_cons, h c (List.mem_cons_self c cs),
      ih fun d hd => h d (List.mem_cons_of_mem c hd)]
    rfl

/-- **C4 counterexample.** `to_snake_case` is not idempotent over all
strings: on `"İ"` (U+0130) the word-character filter keeps the letter and
the final lowercasing expands it to `'i'` followed by U+0307 (combining dot
above), exactly as Python's `'İ'.lower()` does; a second application
removes U+0307 — not a word character — leaving `"i"`. -/
theorem to_snake_case_not_idempotent :
    to_snake_case (String.mk [Char.ofNat 304]) =
      String.mk [Char.ofNat 105, Char.ofNat 775] ∧
    to_snake_case (to_snake_case (String.mk [Char.ofNat 304])) =
      String.mk [Char.ofNat 105] ∧
    to_snake_case (to_snake_case (String.mk [Char.ofNat 304])) ≠
      to_snake_case (String.mk [Char.ofNat 304]) :=
  ⟨by decide, by decide, by decide⟩

/-- **C4 (amended).** The name normalizer is idempotent on every string of
ASCII characters (the domain on which the character model is exact): the
output of one application consists only of digits, lowercase letters and
underscores, on which every stage of the function is the identity.
Unrestricted idempotence fails, see the counterexample. -/
theorem to_snake_case_idempotent (s : String)
    (hascii : ∀ c ∈ s.data, c.toNat ≤ 127) :
    to_snake_case (to_snake_case s) = to_snake_case s := by
  have hgood := to_snake_case_good s hascii
  generalize ht : to_snake_case s = t at hgood ⊢
  have e1 : t.data.filter (fun c => !(c == ',')) = t.data :=
    filter_eq_self_of_true fun c hc => by simp [(hgood c hc).not_comma]
  have e2 : collapseRuns isSpaceChar '_' false t.data = t.data :=
    collapseRuns_id fun c hc => (hgood c hc).not_space
  have e3 : collapseRuns (fun c => c == '-') '_' false t.data = t.data :=
    collapseRuns_id fun c hc => (hgood c hc).not_hyphen
  have e4 : t.data.filter isWordChar = t.data :=
    filter_eq_self_of_true fun c hc => (hgood c hc).word
  have e5 : t.data.flatMap lowerChars = t.data :=
    flatMap_id_of_fixed fun c hc => (hgood c hc).lowerChars_fixed
  simp only [to_snake_case]
  rw [e1, e2, e3, e4, e5]

/-- Witness for C4 (amended) at a concrete input. -/
theorem to_snake_case_idempotent_witness :
    (∀ c ∈ ("Module-Test" : String).data, c.toNat ≤ 127) ∧
    to_snake_case (to_snake_case "Module-Test") = to_snake_case "Module-Test" :=
  ⟨by decide, to_snake_case_idempotent "Module-Test" (by decide)⟩

/-- **C6.** The name normalizer is a total function (it is defined for every
string of the model) and matches the spec's five-step policy on the given
concrete inputs, including the empty string. -/
theorem to_snake_case_examples :
    to_snake_case "Accessing Values in a Hash Map" = "accessing_values_in_a_hash_map" ∧
    to_snake_case "Module-Test" = "module_test" ∧
    to_snake_case "Already_Snake" = "already_snake" ∧
    to_snake_case "" = "" := by
  refine ⟨by decide, by decide, by decide, by decide⟩

/-! ### Order facts about `charsLt` -/

theorem charsLt_irrefl : ∀ (l : List Char), charsLt l l = false
  | [] => rfl
  | a :: as => by
    simp only [charsLt]
    rw [if_neg (by omega), if_neg (by omega)]
    exact charsLt_irrefl as

theorem charsLt_asymm : ∀ (l1 l2 : List Char),
    charsLt l1 l2 = true → charsLt l2 l1 = false
  | [], [], h => by simp [charsLt] at h
  | [], _ :: _, _ => by simp [charsLt]
  | _ :: _, [], h => by simp [charsLt] at h
  | a :: as, b :: bs, h => by
    simp only [charsLt] at h ⊢
    rcases Nat.lt_trichotomy a.toNat b.toNat with h1 | h1 | h1
    · rw [if_neg (by omega), if_pos h1]
    · rw [if_neg (by omega), if_neg (by omega)] at h ⊢
      exact charsLt_asymm as bs h
    · rw [if_neg (by omega), if_pos h1] at h
      exact absurd h (by simp)

theorem charsLt_eq_of_not : ∀ (l1 l2 : List Char),
    charsLt l1 l2 = false → charsLt l2 l1 = false → l1 = l2
  | [], [], _, _ => rfl
  | [], _ :: _, h, _ => by simp [charsLt] at h
  | _ :: _, [], _, h => by simp [charsLt] at h
  | a :: as, b :: bs, h, h' => by
    simp only [charsLt] at h h'
    rcases Nat.lt_trichotomy a.toNat b.toNat with h1 | h1 | h1
    · rw [if_pos h1] at h; exact absurd h (by simp)
    · have ha : a = b := Char.ext (by
        have : a.val.toBitVec.toNat = b.val.toBitVec.toNat := h1
        exact UInt32.eq_of_toBitVec_eq (BitVec.eq_of_toNat_eq this))
      rw [if_neg (by omega), if_neg (by omega)] at h h'
      rw [ha, charsLt_eq_of_not as bs h h']
    · rw [if_pos h1] at h'
      exact absurd h' (by simp)

theorem charsLt_trans : ∀ (l1 l2 l3 : List Char),
    charsLt l1 l2 = true → charsLt l2 l3 = true → charsLt l1 l3 = true
  | [], [], _, h1, _ => by simp [charsLt] at h1
  | _ :: _, [], _, h1, _ => by simp [charsLt] at h1
  | _, _ :: _, [], _, h2 => by simp [charsLt] at h2
  | [], _ :: _, _ :: _, _, _ => by simp [charsLt]
  | a :: as, b :: bs, c :: cs, h1, h2 => by
    simp only [charsLt] at h1 h2 ⊢
    by_cases hab : a.toNat < b.toNat
    · by_cases hbc : b.toNat < c.toNat
      · rw [if_pos (by omega)]
      · rw [if_neg hbc] at h2
        by_cases hcb : c.toNat < b.toNat
        · rw [if_pos hcb] at h2; exact absurd h2 (by simp)
        · rw [if_pos (by omega)]
    · rw [if_neg hab] at h1
      by_cases hba : b.toNat < a.toNat
      · rw [if_pos hba] at h1; exact absurd h1 (by simp)
      · rw [if_neg hba] at h1
        by_cases hbc : b.toNat < c.toNat
        · rw [if_pos (by omega)]
        · rw [if_neg hbc] at h2
          by_cases hcb : c.toNat < b.toNat
          · rw [if_pos hcb] at h2; exact absurd h2 (by simp)
          · rw [if_neg hcb] at h2
            rw [if_neg (by omega), if_neg (by omega)]
            exact charsLt_trans as bs cs h1 h2

theorem string_eq_of_data {a b : String} (h : a.data = b.data) : a = b := by
  cases a; cases b
  exact congrArg String.mk h

/-! ### C9: the ordering on `PathMapping` -/

/-- **C9 counterexample.** Two `PathMapping`s with different sources but the
same final `dest` component are distinct by value, yet neither is less than
the other: "exactly one of `a < b`, `b < a`, or `a = b`" fails (none of the
three holds), so the comparison is not a total order on `PathMapping`
values. -/
theorem pmLt_not_total_order :
    pmLt ⟨["x"], ["m"]⟩ ⟨["y"], ["m"]⟩ = false ∧
    pmLt ⟨["y"], ["m"]⟩ ⟨["x"], ["m"]⟩ = false ∧
    (⟨["x"], ["m"]⟩ : PathMapping) ≠ ⟨["y"], ["m"]⟩ :=
  ⟨by decide, by decide, by decide⟩

/-- **C9 (amended).** The comparison on `PathMapping` defined by the final
`dest` component is a total preorder: for every two mappings, exactly one of
`a < b`, `b < a`, or "`a` and `b` have equal final `dest` components" holds
(by-value equality of the mappings is replaced by equality of the compared
names). -/
theorem pmLt_trichotomy (a b : PathMapping) :
    (pmLt a b = true ∨ pmLt b a = true ∨ pname a.dest = pname b.dest) ∧
    ¬(pmLt a b = true ∧ pmLt b a = true) ∧
    ¬(pmLt a b = true ∧ pname a.dest = pname b.dest) ∧
    ¬(pmLt b a = true ∧ pname a.dest = pname b.dest) := by
  simp only [pmLt, strLt]
  refine ⟨?_, ?_, ?_, ?_⟩
  · by_cases h1 : charsLt (pname a.dest).data (pname b.dest).data = true
    · exact Or.inl h1
    · by_cases h2 : charsLt (pname b.dest).data (pname a.dest).data = true
      · exact Or.inr (Or.inl h2)
      · exact Or.inr (Or.inr (string_eq_of_data
          (charsLt_eq_of_not _ _ (by simpa using h1) (by simpa using h2))))
  · rintro ⟨h1, h2⟩
    rw [charsLt_asymm _ _ h1] at h2
    exact absurd h2 (by simp)
  · rintro ⟨h1, h2⟩
    rw [h2, charsLt_irrefl] at h1
    exact absurd h1 (by simp)
  · rintro ⟨h1, h2⟩
    rw [h2, charsLt_irrefl] at h1
    exact absurd h1 (by simp)

/-! ### C2: the parent/child invariant of `collect_dirs_structure` -/

theorem pjoin_child_or_eq (p : FPath) (s : String) :
    isDirectChild (pjoin p s) p = true ∨ pjoin p s = p := by
  by_cases h : s = ""
  · right; simp [pjoin, h]
  · left
    simp only [pjoin, if_neg h, isDirectChild, List.getLast?_concat]
    simp [h, List.dropLast_concat]

/-- **C2 counterexample.** An origin directory whose name normalizes to the
empty string (here `"!!!"`): Python's path join drops the empty component,
so the level-1 mapping's destination is the destination root itself, not a
direct child of it — the claimed invariant fails for names whose normalized
form is empty. -/
theorem collect_child_cex :
    (collect_dirs_structure ["o"] ["d"] [⟨"!!!", true, []⟩]).dirs =
      [(⟨["o", "!!!"], ["d"]⟩, [])] ∧
    isDirectChild ["d"] ["d"] = false :=
  ⟨by decide, by decide⟩

/-- **C2 (amended).** In every structure returned by
`collect_dirs_structure`, each mapping's destination is a direct child of
its owner's destination (the run's destination root for level 1, the owning
mapping's destination otherwise) — or equal to the owner's destination in
the degenerate case where the origin directory name normalizes to the empty
string, since the path join drops the empty component. -/
theorem collect_child (origin_dir dest_dir : FPath) (entries : List Entry1)
    (m1 : PathMapping) (l2s : List (PathMapping × List PathMapping))
    (h1 : (m1, l2s) ∈ (collect_dirs_structure origin_dir dest_dir entries).dirs) :
    (isDirectChild m1.dest dest_dir = true ∨ m1.dest = dest_dir) ∧
    ∀ m2 l3s, (m2, l3s) ∈ l2s →
      (isDirectChild m2.dest m1.dest = true ∨ m2.dest = m1.dest) ∧
      ∀ m3 ∈ l3s, isDirectChild m3.dest m2.dest = true ∨ m3.dest = m2.dest := by
  simp only [collect_dirs_structure, List.mem_map] at h1
  obtain ⟨d1, hd1, he1⟩ := h1
  injection he1 with hm1 hl2s
  subst hm1 hl2s
  refine ⟨pjoin_child_or_eq _ _, ?_⟩
  intro m2 l3s h2
  simp only [List.mem_map] at h2
  obtain ⟨d2, hd2, he2⟩ := h2
  injection he2 with hm2 hl3s
  subst hm2 hl3s
  refine ⟨pjoin_child_or_eq _ _, ?_⟩
  intro m3 h3
  simp only [List.mem_map] at h3
  obtain ⟨d3, hd3, he3⟩ := h3
  subst he3
  exact pjoin_child_or_eq _ _

/-- Witness for C2 (amended) at a concrete input. -/
theorem collect_child_witness :
    ((⟨["o", "A"], ["d", "a"]⟩, ([] : List (PathMapping × List PathMapping))) ∈
        (collect_dirs_structure ["o"] ["d"] [⟨"A", true, []⟩]).dirs) ∧
    ((isDirectChild (PathMapping.mk ["o", "A"] ["d", "a"]).dest ["d"] = true ∨
        (PathMapping.mk ["o", "A"] ["d", "a"]).dest = ["d"]) ∧
      ∀ m2 l3s, (m2, l3s) ∈ ([] : List (PathMapping × List PathMapping)) →
        (isDirectChild m2.dest (PathMapping.mk ["o", "A"] ["d", "a"]).dest = true ∨
          m2.dest = (PathMapping.mk ["o", "A"] ["d", "a"]).dest) ∧
        ∀ m3 ∈ l3s, isDirectChild m3.dest m2.dest = true ∨ m3.dest = m2.dest) :=
  ⟨by decide, collect_child ["o"] ["d"] [⟨"A", true, []⟩] _ _ (by decide)⟩

/-! ### C10: word characters and `with_suffix` -/

theorem rfindDot_none {l : List Char} (h : ∀ c ∈ l, (c == '.') = false) :
    rfindDot l = none := by
  induction l with
  | nil => rfl
  | cons c cs ih =>
    simp only [rfindDot, ih fun d hd => h d (List.mem_cons_of_mem c hd)]
    simp [h c (List.mem_cons_self c cs)]

theorem string_mk_data (s : String) : String.mk s.data = s := rfl

/-- **C10 counterexample.** The universal word-character property fails on
the normalizer: on input `"İ"` (U+0130) the output contains U+0307
(combining dot above), which is not a word character — as in Python, where
`'İ'.lower()` is `'i'` + U+0307 and U+0307 does not match `\w`. -/
theorem to_snake_case_output_not_word :
    Char.ofNat 775 ∈ (to_snake_case (String.mk [Char.ofNat 304])).data ∧
    isWordChar (Char.ofNat 775) = false :=
  ⟨by decide, by decide⟩

/-- **C10 (amended).** For every ASCII input string (the domain on which
the character model is exact), every character of `to_snake_case`'s output
is a word character (letter, digit or underscore); in particular the output
contains no dot, so for a non-empty normalized name the `with_suffix`
destinations equal the leaf destination path with the extension appended to
its final component, never a path with part of the name replaced.  The
unrestricted word-character claim fails, see the counterexample. -/
theorem to_snake_case_with_suffix (s : String) (p : FPath) (ext : String)
    (hascii : ∀ c ∈ s.data, c.toNat ≤ 127)
    (h : to_snake_case s ≠ "") :
    (∀ c ∈ (to_snake_case s).data, isWordChar c = true) ∧
    with_suffix (pjoin p (to_snake_case s)) ext = p ++ [to_snake_case s ++ ext] := by
  refine ⟨fun c hc => (to_snake_case_good s hascii c hc).word, ?_⟩
  have hnodot : rfindDot (to_snake_case s).data = none :=
    rfindDot_none fun c hc => by simpa using (to_snake_case_good s hascii c hc).not_dot
  rw [pjoin, if_neg h]
  simp only [with_suffix, List.getLast?_concat, nameSuffix, hnodot,
    List.dropLast_concat, List.length_nil, Nat.sub_zero, List.take_length,
    string_mk_data]

/-- Witness for C10 (amended) at a concrete input. -/
theorem to_snake_case_with_suffix_witness :
    (∀ c ∈ ("Third Module" : String).data, c.toNat ≤ 127) ∧
    to_snake_case "Third Module" ≠ "" ∧
    ((∀ c ∈ (to_snake_case "Third Module").data, isWordChar c = true) ∧
      with_suffix (pjoin ["d", "a"] (to_snake_case "Third Module")) ".rs" =
        ["d", "a"] ++ [to_snake_case "Third Module" ++ ".rs"]) :=
  ⟨by decide, by decide,
    to_snake_case_with_suffix "Third Module" ["d", "a"] ".rs" (by decide) (by decide)⟩

/-! ### C7: dry-run performs no mutation -/

theorem writesOf_append (e1 e2 : List Effect) :
    writesOf (e1 ++ e2) = writesOf e1 ++ writesOf e2 :=
  List.filterMap_append e1 e2 _

theorem mkdirsOf_append (e1 e2 : List Effect) :
    mkdirsOf (e1 ++ e2) = mkdirsOf e1 ++ mkdirsOf e2 :=
  List.filterMap_append e1 e2 _

theorem copy_file_dry (fs : FS) (s d : FPath) :
    (copy_file fs s d true).1 = fs ∧ writesOf (copy_file fs s d true).2 = [] ∧
    mkdirsOf (copy_file fs s d true).2 = [] := by
  unfold copy_file
  by_cases h : file_exists fs s = true <;>
    simp [h, writesOf, mkdirsOf]

theorem run_copies_dry (fs : FS) (ts : List (FPath × FPath)) :
    (run_copies fs ts true).1 = fs ∧ writesOf (run_copies fs ts true).2 = [] ∧
    mkdirsOf (run_copies fs ts true).2 = [] := by
  induction ts generalizing fs with
  | nil => exact ⟨rfl, rfl, rfl⟩
  | cons t rest ih =>
    obtain ⟨s, d⟩ := t
    obtain ⟨h1, h2, h3⟩ := copy_file_dry fs s d
    obtain ⟨i1, i2, i3⟩ := ih (copy_file fs s d true).1
    simp only [run_copies]
    refine ⟨i1.trans h1, ?_, ?_⟩
    · rw [writesOf_append, h2, i2]; rfl
    · rw [mkdirsOf_append, h3, i3]; rfl

theorem run_writes_dry (fs : FS) (ws : List (FPath × String)) :
    (run_writes fs ws true).1 = fs ∧ writesOf (run_writes fs ws true).2 = [] ∧
    mkdirsOf (run_writes fs ws true).2 = [] := by
  induction ws generalizing fs with
  | nil => exact ⟨rfl, rfl, rfl⟩
  | cons w rest ih =>
    obtain ⟨p, c⟩ := w
    obtain ⟨i1, i2, i3⟩ := ih fs
    simp only [run_writes, write_to_file, if_pos]
    exact ⟨i1, i2, i3⟩

/-- **C7.** In dry-run mode, for every input structure and every filesystem
state, neither `copy_code_and_task_files` nor `create_mod_files` performs
any filesystem mutation: no file is written, no directory is created (the
traces contain no write and no mkdir), and the filesystem state after each
run equals the state before.  Only log output occurs. -/
theorem dry_run_no_mutation (fs : FS) (ds : DirectoriesStructure) :
    (copy_code_and_task_files fs ds true).1 = fs ∧
    writesOf (copy_code_and_task_files fs ds true).2 = [] ∧
    mkdirsOf (copy_code_and_task_files fs ds true).2 = [] ∧
    (create_mod_files fs ds true).1 = fs ∧
    writesOf (create_mod_files fs ds true).2 = [] ∧
    mkdirsOf (create_mod_files fs ds true).2 = [] := by
  obtain ⟨h1, h2, h3⟩ := run_copies_dry fs (copy_tasks fs ds)
  obtain ⟨h4, h5, h6⟩ := run_writes_dry fs
    (ds.dirs.map (fun x => (pjoin x.1.dest "mod.rs", mod_content x.2)))
  exact ⟨h1, h2, h3, h4, h5, h6⟩

/-! ### C8: a missing source file is skipped with a warning -/

theorem run_copies_append (fs : FS) (l1 l2 : List (FPath × FPath)) (dry : Bool) :
    run_copies fs (l1 ++ l2) dry =
      ((run_copies (run_copies fs l1 dry).1 l2 dry).1,
        (run_copies fs l1 dry).2 ++ (run_copies (run_copies fs l1 dry).1 l2 dry).2) := by
  induction l1 generalizing fs with
  | nil => simp [run_copies]
  | cons t rest ih =>
    obtain ⟨s, d⟩ := t
    simp only [List.cons_append, run_copies, List.append_eq]
    rw [ih]
    simp [List.append_assoc]

/-- **C8.** A `copy_file` invocation whose source file does not exist (in
the state reached by the preceding copies of the batch) completes without
error: it performs no write, creates no directory, leaves the filesystem
unchanged and only logs a warning; the surrounding batch produces the same
final state, the same writes and the same directory creations as the batch
with that copy removed, so sibling copies are unaffected. -/
theorem copy_file_missing_source (fs0 : FS) (pre post : List (FPath × FPath))
    (s d : FPath) (dry : Bool)
    (h : file_exists (run_copies fs0 pre dry).1 s = false) :
    copy_file (run_copies fs0 pre dry).1 s d dry =
      ((run_copies fs0 pre dry).1, [.logWarn ("File not found: " ++ pstr s)]) ∧
    (run_copies fs0 (pre ++ (s, d) :: post) dry).1 =
      (run_copies fs0 (pre ++ post) dry).1 ∧
    writesOf (run_copies fs0 (pre ++ (s, d) :: post) dry).2 =
      writesOf (run_copies fs0 (pre ++ post) dry).2 ∧
    mkdirsOf (run_copies fs0 (pre ++ (s, d) :: post) dry).2 =
      mkdirsOf (run_copies fs0 (pre ++ post) dry).2 := by
  have hcf : copy_file (run_copies fs0 pre dry).1 s d dry =
      ((run_copies fs0 pre dry).1, [.logWarn ("File not found: " ++ pstr s)]) := by
    unfold copy_file
    rw [h]
    simp
  have hstep : run_copies (run_copies fs0 pre dry).1 ((s, d) :: post) dry =
      ((run_copies (run_copies fs0 pre dry).1 post dry).1,
        [Effect.logWarn ("File not found: " ++ pstr s)] ++
          (run_copies (run_copies fs0 pre dry).1 post dry).2) := by
    simp only [run_copies, hcf]
  refine ⟨hcf, ?_, ?_, ?_⟩ <;>
    rw [run_copies_append fs0 pre ((s, d) :: post) dry,
      run_copies_append fs0 pre post dry, hstep] <;>
    simp [writesOf_append, mkdirsOf_append, writesOf, mkdirsOf]

/-- Witness for C8 at a concrete input. -/
theorem copy_file_missing_source_witness :
    file_exists (run_copies ⟨[], []⟩ [] false).1 ["o", "main.rs"] = false ∧
    (copy_file (run_copies ⟨[], []⟩ [] false).1 ["o", "main.rs"] ["d", "x.rs"] false =
      ((run_copies ⟨[], []⟩ [] false).1,
        [.logWarn ("File not found: " ++ pstr ["o", "main.rs"])]) ∧
    (run_copies ⟨[], []⟩ ([] ++ (["o", "main.rs"], ["d", "x.rs"]) :: []) false).1 =
      (run_copies ⟨[], []⟩ ([] ++ []) false).1 ∧
    writesOf (run_copies ⟨[], []⟩ ([] ++ (["o", "main.rs"], ["d", "x.rs"]) :: []) false).2 =
      writesOf (run_copies ⟨[], []⟩ ([] ++ []) false).2 ∧
    mkdirsOf (run_copies ⟨[], []⟩ ([] ++ (["o", "main.rs"], ["d", "x.rs"]) :: []) false).2 =
      mkdirsOf (run_copies ⟨[], []⟩ ([] ++ []) false).2) :=
  ⟨by decide, copy_file_missing_source ⟨[], []⟩ [] [] ["o", "main.rs"] ["d", "x.rs"] false (by decide)⟩

/-! ### C1: both copy decisions are gated on the `.rs` destination -/

/-- The per-leaf copy schedule as the spec describes it: nothing when the
`.rs` destination exists, otherwise both copies. -/
def leafTasks (fs : FS) (m3 : PathMapping) : List (FPath × FPath) :=
  if file_exists fs (with_suffix m3.dest ".rs") then []
  else [(pjoin (pjoin m3.source "src") "main.rs", with_suffix m3.dest ".rs"),
        (pjoin m3.source "task.md", with_suffix m3.dest ".md")]

theorem copy_tasks_eq (fs : FS) (ds : DirectoriesStructure) :
    copy_tasks fs ds = (leaves ds).flatMap (leafTasks fs) := by
  simp only [copy_tasks, leaves]
  rw [List.flatMap_assoc]
  refine congrArg (List.flatMap ds.dirs) (funext fun x => ?_)
  rw [List.flatMap_assoc]
  refine congrArg (List.flatMap x.2) (funext fun y => ?_)
  refine congrArg (List.flatMap y.2) (funext fun m3 => ?_)
  by_cases h : file_exists fs (with_suffix m3.dest ".rs") = true <;>
    simp [leafTasks, h]

/-- **C1.** For every leaf mapping, both file decisions of
`copy_code_and_task_files` test the `.rs` destination path: the batch that
is executed schedules, per leaf, nothing at all when the `.rs` destination
already exists (neither the `.rs` nor the `.md` copy is performed), and
both the `src/main.rs → .rs` copy and the `task.md → .md` copy when the
`.rs` destination does not exist — the `.md` destination's own existence is
never consulted. -/
theorem copy_gating (fs : FS) (ds : DirectoriesStructure) (dry_run : Bool) :
    copy_code_and_task_files fs ds dry_run =
      run_copies fs ((leaves ds).flatMap (fun m3 =>
        if file_exists fs (with_suffix m3.dest ".rs") then []
        else [(pjoin (pjoin m3.source "src") "main.rs", with_suffix m3.dest ".rs"),
              (pjoin m3.source "task.md", with_suffix m3.dest ".md")])) dry_run := by
  unfold copy_code_and_task_files
  rw [copy_tasks_eq]
  rfl

/-! ### Sorting lemmas for C5 -/

theorem insertSorted_perm (lt : α → α → Bool) (x : α) (l : List α) :
    List.Perm (insertSorted lt x l) (x :: l) := by
  induction l with
  | nil => exact List.Perm.refl _
  | cons y ys ih =>
    simp only [insertSorted]
    by_cases h : lt x y = true
    · rw [if_pos h]
    · rw [if_neg h]
      exact (ih.cons y).trans (List.Perm.swap x y ys)

theorem sortByLt_perm (lt : α → α → Bool) (l : List α) :
    List.Perm (sortByLt lt l) l := by
  suffices h : ∀ (l acc : List α),
      List.Perm (List.foldl (fun a x => insertSorted lt x a) acc l) (acc ++ l) by
    simpa [sortByLt] using h l []
  intro l
  induction l with
  | nil => intro acc; simp
  | cons x xs ih =>
    intro acc
    simp only [List.foldl_cons]
    refine (ih (insertSorted lt x acc)).trans ?_
    have h1 : List.Perm (insertSorted lt x acc ++ xs) ((x :: acc) ++ xs) :=
      (insertSorted_perm lt x acc).append_right xs
    exact h1.trans List.perm_middle.symm

theorem insertSorted_pairwise {lt : α → α → Bool} {R : α → α → Prop}
    (hpass : ∀ x z, lt x z = false → R z x)
    (hstop : ∀ x y, lt x y = true → R x y)
    (htrans : ∀ a b c, R a b → R b c → R a c)
    (x : α) (l : List α) (hl : l.Pairwise R) :
    (insertSorted lt x l).Pairwise R := by
  induction l with
  | nil => simp [insertSorted]
  | cons y ys ih =>
    rcases List.pairwise_cons.mp hl with ⟨hy, hys⟩
    simp only [insertSorted]
    by_cases h : lt x y = true
    · rw [if_pos h]
      refine List.Pairwise.cons ?_ hl
      intro z hz
      rcases List.mem_cons.mp hz with rfl | hz
      · exact hstop x z h
      · exact htrans x y z (hstop x y h) (hy z hz)
    · rw [if_neg h]
      have hf : lt x y = false := by simpa using h
      refine List.Pairwise.cons ?_ (ih hys)
      intro z hz
      have hz' := (insertSorted_perm lt x ys).mem_iff.mp hz
      rcases List.mem_cons.mp hz' with rfl | hz'
      · exact hpass z y hf
      · exact hy z hz'

theorem sortByLt_pairwise {lt : α → α → Bool} {R : α → α → Prop}
    (hpass : ∀ x z, lt x z = false → R z x)
    (hstop : ∀ x y, lt x y = true → R x y)
    (htrans : ∀ a b c, R a b → R b c → R a c)
    (l : List α) : (sortByLt lt l).Pairwise R := by
  suffices h : ∀ (l acc : List α), acc.Pairwise R →
      (List.foldl (fun a x => insertSorted lt x a) acc l).Pairwise R by
    exact h l [] List.Pairwise.nil
  intro l
  induction l with
  | nil => intro acc hacc; simpa using hacc
  | cons x xs ih =>
    intro acc hacc
    simp only [List.foldl_cons]
    exact ih _ (insertSorted_pairwise hpass hstop htrans x acc hacc)

theorem charsLt_neg_trans {a b c : List Char}
    (h1 : charsLt b a = false) (h2 : charsLt c b = false) : charsLt c a = false := by
  by_contra hne
  have h' : charsLt c a = true := by simpa using hne
  by_cases hab : charsLt a b = true
  · have hcb := charsLt_trans c a b h' hab
    rw [hcb] at h2
    exact absurd h2 (by simp)
  · have hba : a = b := charsLt_eq_of_not a b (by simpa using hab) h1
    subst hba
    rw [h'] at h2
    exact absurd h2 (by simp)

/-! ### C5: content and ordering of the generated `mod.rs` files -/

theorem run_writes_writesOf (fs : FS) (ws : List (FPath × String)) :
    writesOf (run_writes fs ws false).2 = ws := by
  induction ws generalizing fs with
  | nil => rfl
  | cons w rest ih =>
    obtain ⟨p, c⟩ := w
    simp only [run_writes, write_to_file]
    rw [writesOf_append, ih]
    rfl

theorem itemLe_of_not_itemLt (x z : PathMapping × List PathMapping)
    (h : itemLt x z = false) :
    strLt (pname x.1.dest) (pname z.1.dest) = false := by
  unfold itemLt at h
  by_cases he : x.1 = z.1
  · rw [he]
    exact charsLt_irrefl _
  · rw [if_neg he] at h
    exact h

theorem itemLe_of_itemLt (x y : PathMapping × List PathMapping)
    (h : itemLt x y = true) :
    strLt (pname y.1.dest) (pname x.1.dest) = false := by
  unfold itemLt at h
  by_cases he : x.1 = y.1
  · rw [← he]
    exact charsLt_irrefl _
  · rw [if_neg he] at h
    exact charsLt_asymm _ _ h

/-- **C5.** For every structure, `create_mod_files` (non-dry) performs
exactly one write per level-1 mapping, at that mapping's destination joined
with `mod.rs`; the document consists of one `pub mod <level2-dest-name>`
block per level-2 mapping — the sorted item list is a permutation of the
level-2 items — in the order given by the `PathMapping` comparison (final
`dest` components appear in nondecreasing string order), each block holding
one `    pub mod <level3-dest-name>;` line per level-3 mapping, also sorted;
consecutive blocks are separated by exactly one blank line
(`"\n\n".join`). -/
theorem create_mod_files_content (fs : FS) (ds : DirectoriesStructure) :
    writesOf (create_mod_files fs ds false).2 =
      ds.dirs.map (fun x => (pjoin x.1.dest "mod.rs", mod_content x.2)) ∧
    ∀ x ∈ ds.dirs,
      mod_content x.2 =
        String.intercalate "\n\n"
          ((sortByLt itemLt x.2).map (fun y => mod_block y.1 y.2)) ∧
      List.Perm (sortByLt itemLt x.2) x.2 ∧
      (sortByLt itemLt x.2).Pairwise
        (fun a b => strLt (pname b.1.dest) (pname a.1.dest) = false) ∧
      ∀ y ∈ x.2,
        mod_block y.1 y.2 =
          "pub mod " ++ pname y.1.dest ++ " \x7b\n" ++
            String.intercalate "\n"
              ((sortByLt pmLt y.2).map
                (fun m3 => "    pub mod " ++ pname m3.dest ++ ";")) ++ "\n\x7d" ∧
        List.Perm (sortByLt pmLt y.2) y.2 ∧
        (sortByLt pmLt y.2).Pairwise
          (fun a b => strLt (pname b.dest) (pname a.dest) = false) := by
  refine ⟨run_writes_writesOf fs _, ?_⟩
  intro x _
  refine ⟨rfl, sortByLt_perm itemLt x.2, ?_, ?_⟩
  · exact sortByLt_pairwise itemLe_of_not_itemLt itemLe_of_itemLt
      (fun a b c h1 h2 => charsLt_neg_trans h1 h2) x.2
  · intro y _
    refine ⟨rfl, sortByLt_perm pmLt y.2, ?_⟩
    exact @sortByLt_pairwise _ pmLt
      (fun a b => strLt (pname b.dest) (pname a.dest) = false)
      (fun x z h => h)
      (fun x z h => charsLt_asymm _ _ h)
      (fun a b c h1 h2 => charsLt_neg_trans h1 h2) y.2

/-- Witness for C5 at a concrete input, showing in particular the spec's
ordering example: level-2 dest names `b_mod` and `a_mod` produce blocks in
the order `a_mod` then `b_mod`. -/
theorem create_mod_files_content_witness :
    writesOf (create_mod_files ⟨[], []⟩ (DirectoriesStructure.mk
      [(⟨["o", "A"], ["d", "a"]⟩,
        [(⟨["o", "A", "B"], ["d", "a", "b_mod"]⟩, []),
         (⟨["o", "A", "C"], ["d", "a", "a_mod"]⟩, [])])]) false).2 =
      [(["d", "a", "mod.rs"],
        "pub mod a_mod \x7b\n\n\x7d\n\npub mod b_mod \x7b\n\n\x7d")] := by
  rw [(create_mod_files_content ⟨[], []⟩ (DirectoriesStructure.mk
    [(⟨["o", "A"], ["d", "a"]⟩,
      [(⟨["o", "A", "B"], ["d", "a", "b_mod"]⟩, []),
       (⟨["o", "A", "C"], ["d", "a", "a_mod"]⟩, [])])])).1]
  decide

/-! ### C3: monotonicity of existence and the second run -/

theorem file_exists_write_file {fs : FS} {q : FPath} (p : FPath) (c : String)
    (h : file_exists fs q = true) : file_exists (write_file fs p c) q = true := by
  cases hf : fs.files.any (fun e => e.1 == q) <;>
    cases hd : fs.dirs.any (fun d => d == q) <;>
      simp [file_exists, write_file, hf, hd] at h ⊢

theorem file_exists_mkdir_rec {fs : FS} {q : FPath} (p : FPath)
    (h : file_exists fs q = true) : file_exists (mkdir_rec fs p) q = true := by
  cases hf : fs.files.any (fun e => e.1 == q) <;>
    cases hd : fs.dirs.any (fun d => d == q) <;>
      simp [file_exists, mkdir_rec, hf, hd, List.any_append] at h ⊢

theorem file_exists_copy_file {fs : FS} {q : FPath} (s d : FPath) (dry : Bool)
    (h : file_exists fs q = true) : file_exists (copy_file fs s d dry).1 q = true := by
  unfold copy_file
  by_cases hs : file_exists fs s = true
  · by_cases hdry : dry = true
    · simp [hs, hdry, h]
    · simp only [if_pos hs, if_neg hdry]
      exact file_exists_write_file d _ (file_exists_mkdir_rec _ h)
  · simp [hs, h]

theorem file_exists_run_copies {fs : FS} {q : FPath} (ts : List (FPath × FPath)) (dry : Bool)
    (h : file_exists fs q = true) : file_exists (run_copies fs ts dry).1 q = true := by
  induction ts generalizing fs with
  | nil => exact h
  | cons t rest ih =>
    obtain ⟨s, d⟩ := t
    simp only [run_copies]
    exact ih (file_exists_copy_file s d dry h)

theorem file_exists_write_to_file {fs : FS} {q : FPath} (p : FPath) (c : String) (dry : Bool)
    (h : file_exists fs q = true) : file_exists (write_to_file fs p c dry).1 q = true := by
  unfold write_to_file
  by_cases hdry : dry = true
  · simp [hdry, h]
  · simp only [if_neg hdry]
    exact file_exists_write_file p _ (file_exists_mkdir_rec _ h)

theorem file_exists_run_writes {fs : FS} {q : FPath} (ws : List (FPath × String)) (dry : Bool)
    (h : file_exists fs q = true) : file_exists (run_writes fs ws dry).1 q = true := by
  induction ws generalizing fs with
  | nil => exact h
  | cons w rest ih =>
    obtain ⟨p, c⟩ := w
    simp only [run_writes]
    exact ih (file_exists_write_to_file p c dry h)

theorem run_copies_creates {fs : FS} (ts : List (FPath × FPath)) (s d : FPath)
    (hmem : (s, d) ∈ ts) (hs : file_exists fs s = true) :
    file_exists (run_copies fs ts false).1 d = true := by
  induction ts generalizing fs with
  | nil => cases hmem
  | cons t rest ih =>
    obtain ⟨s', d'⟩ := t
    simp only [run_copies]
    rcases List.mem_cons.mp hmem with heq | hmem'
    · injection heq with h1 h2
      subst h1 h2
      have hd : file_exists (copy_file fs s d false).1 d = true := by
        unfold copy_file
        rw [if_pos hs]
        simp [file_exists, write_file]
      exact file_exists_run_copies rest false hd
    · exact ih hmem' (file_exists_copy_file s' d' false hs)

theorem leaf_rs_exists_after (fs : FS) (ds : DirectoriesStructure) (m3 : PathMapping)
    (hm : m3 ∈ leaves ds)
    (h : file_exists fs (pjoin (pjoin m3.source "src") "main.rs") = true ∨
         file_exists fs (with_suffix m3.dest ".rs") = true) :
    file_exists (copy_code_and_task_files fs ds false).1 (with_suffix m3.dest ".rs") = true := by
  unfold copy_code_and_task_files
  rcases h with h | h
  · by_cases hrs : file_exists fs (with_suffix m3.dest ".rs") = true
    · exact file_exists_run_copies _ false hrs
    · have hmem : (pjoin (pjoin m3.source "src") "main.rs", with_suffix m3.dest ".rs") ∈
          copy_tasks fs ds := by
        rw [copy_tasks_eq]
        exact List.mem_flatMap.mpr ⟨m3, hm, by simp [leafTasks, hrs]⟩
      exact run_copies_creates _ _ _ hmem h
  · exact file_exists_run_copies _ false h

theorem copy_tasks_nil_of_rs (fs : FS) (ds : DirectoriesStructure)
    (h : ∀ m3 ∈ leaves ds, file_exists fs (with_suffix m3.dest ".rs") = true) :
    copy_tasks fs ds = [] := by
  rw [copy_tasks_eq, List.flatMap_eq_nil_iff]
  intro m3 hm
  simp [leafTasks, h m3 hm]

theorem rs_exists_pipeline (origin_dir dest_dir : FPath) (entries : List Entry1) (fs : FS)
    (h : ∀ m3 ∈ leaves (collect_dirs_structure origin_dir dest_dir entries),
        file_exists fs (pjoin (pjoin m3.source "src") "main.rs") = true ∨
        file_exists fs (with_suffix m3.dest ".rs") = true) :
    ∀ m3 ∈ leaves (collect_dirs_structure origin_dir dest_dir entries),
      file_exists (run_pipeline origin_dir dest_dir entries fs false).1
        (with_suffix m3.dest ".rs") = true := by
  intro m3 hm
  have h' : file_exists (mkdir_rec fs dest_dir)
        (pjoin (pjoin m3.source "src") "main.rs") = true ∨
      file_exists (mkdir_rec fs dest_dir) (with_suffix m3.dest ".rs") = true := by
    rcases h m3 hm with hl | hr
    · exact Or.inl (file_exists_mkdir_rec _ hl)
    · exact Or.inr (file_exists_mkdir_rec _ hr)
  simp only [run_pipeline]
  exact file_exists_run_writes _ false
    (leaf_rs_exists_after (mkdir_rec fs dest_dir) _ m3 hm h')

/-- **C3 counterexample.** A leaf whose origin has `task.md` but no
`src/main.rs`: the `.rs` destination is never created, so on the second run
the gate (which checks only the `.rs` destination) still fails and the
`task.md` copy is re-performed — the leaf's `.md` destination is written
again on the second run over an unchanged origin. -/
theorem second_run_recopies_md :
    Effect.write ["d", "a", "b", "c.md"] "tc" ∈
      (run_pipeline ["o"] ["d"] [⟨"A", true, [⟨"B", true, [⟨"C", true⟩]⟩]⟩]
        ⟨[(["o", "A", "B", "C", "task.md"], "tc")], []⟩ false).2 ∧
    Effect.write ["d", "a", "b", "c.md"] "tc" ∈
      (run_pipeline ["o"] ["d"] [⟨"A", true, [⟨"B", true, [⟨"C", true⟩]⟩]⟩]
        (run_pipeline ["o"] ["d"] [⟨"A", true, [⟨"B", true, [⟨"C", true⟩]⟩]⟩]
          ⟨[(["o", "A", "B", "C", "task.md"], "tc")], []⟩ false).1 false).2 :=
  ⟨by decide, by decide⟩

/-- **C3 (amended).** Running the full pipeline a second time on an
unchanged origin performs no file write beyond the unconditional rewrite of
the `mod.rs` aggregation files, provided every leaf's `src/main.rs` source
file exists (or that leaf's `.rs` destination already exists) in the initial
state: the second run schedules no leaf copy at all, and its write trace is
exactly the per-level-1 `mod.rs` writes.  (Without that proviso the claim
fails: a leaf with `task.md` but no `src/main.rs` has its `.md` destination
rewritten on every run, see the counterexample.) -/
theorem second_run_writes_only_mods (origin_dir dest_dir : FPath)
    (entries : List Entry1) (fs : FS)
    (h : ∀ m3 ∈ leaves (collect_dirs_structure origin_dir dest_dir entries),
        file_exists fs (pjoin (pjoin m3.source "src") "main.rs") = true ∨
        file_exists fs (with_suffix m3.dest ".rs") = true) :
    copy_tasks (run_pipeline origin_dir dest_dir entries fs false).1
        (collect_dirs_structure origin_dir dest_dir entries) = [] ∧
    writesOf (run_pipeline origin_dir dest_dir entries
        (run_pipeline origin_dir dest_dir entries fs false).1 false).2 =
      (collect_dirs_structure origin_dir dest_dir entries).dirs.map
        (fun x => (pjoin x.1.dest "mod.rs", mod_content x.2)) := by
  have hrs := rs_exists_pipeline origin_dir dest_dir entries fs h
  refine ⟨copy_tasks_nil_of_rs _ _ hrs, ?_⟩
  generalize hF : (run_pipeline origin_dir dest_dir entries fs false).1 = F at hrs
  have hnil : copy_tasks (mkdir_rec F dest_dir)
      (collect_dirs_structure origin_dir dest_dir entries) = [] :=
    copy_tasks_nil_of_rs _ _ (fun m3 hm => file_exists_mkdir_rec _ (hrs m3 hm))
  simp only [run_pipeline, if_neg (by decide : ¬(false = true))]
  unfold copy_code_and_task_files
  rw [hnil]
  simp only [run_copies]
  rw [writesOf_append, writesOf_append]
  simp only [create_mod_files]
  rw [run_writes_writesOf]
  rfl

/-- Witness for C3 (amended) at a concrete input (one leaf whose
`src/main.rs` exists). -/
theorem second_run_writes_only_mods_witness :
    (∀ m3 ∈ leaves (collect_dirs_structure ["o"] ["d"]
        [⟨"A", true, [⟨"B", true, [⟨"C", true⟩]⟩]⟩]),
      file_exists ⟨[(["o", "A", "B", "C", "src", "main.rs"], "fn main() \x7b\x7d"),
          (["o", "A", "B", "C", "task.md"], "tc")], []⟩
        (pjoin (pjoin m3.source "src") "main.rs") = true ∨
      file_exists ⟨[(["o", "A", "B", "C", "src", "main.rs"], "fn main() \x7b\x7d"),
          (["o", "A", "B", "C", "task.md"], "tc")], []⟩
        (with_suffix m3.dest ".rs") = true) ∧
    (copy_tasks (run_pipeline ["o"] ["d"] [⟨"A", true, [⟨"B", true, [⟨"C", true⟩]⟩]⟩]
        ⟨[(["o", "A", "B", "C", "src", "main.rs"], "fn main() \x7b\x7d"),
          (["o", "A", "B", "C", "task.md"], "tc")], []⟩ false).1
        (collect_dirs_structure ["o"] ["d"] [⟨"A", true, [⟨"B", true, [⟨"C", true⟩]⟩]⟩]) = [] ∧
      writesOf (run_pipeline ["o"] ["d"] [⟨"A", true, [⟨"B", true, [⟨"C", true⟩]⟩]⟩]
          (run_pipeline ["o"] ["d"] [⟨"A", true, [⟨"B", true, [⟨"C", true⟩]⟩]⟩]
            ⟨[(["o", "A", "B", "C", "src", "main.rs"], "fn main() \x7b\x7d"),
              (["o", "A", "B", "C", "task.md"], "tc")], []⟩ false).1 false).2 =
        (collect_dirs_structure ["o"] ["d"]
            [⟨"A", true, [⟨"B", true, [⟨"C", true⟩]⟩]⟩]).dirs.map
          (fun x => (pjoin x.1.dest "mod.rs", mod_content x.2))) :=
  ⟨by decide, second_run_writes_only_mods ["o"] ["d"]
    [⟨"A", true, [⟨"B", true, [⟨"C", true⟩]⟩]⟩]
    ⟨[(["o", "A", "B", "C", "src", "main.rs"], "fn main() \x7b\x7d"),
      (["o", "A", "B", "C", "task.md"], "tc")], []⟩ (by decide)⟩

/-- Witness for C9 (amended) at a concrete input. -/
theorem pmLt_trichotomy_witness :
    (pmLt ⟨["s1"], ["a"]⟩ ⟨["s2"], ["b"]⟩ = true ∨
      pmLt ⟨["s2"], ["b"]⟩ ⟨["s1"], ["a"]⟩ = true ∨
      pname (PathMapping.mk ["s1"] ["a"]).dest = pname (PathMapping.mk ["s2"] ["b"]).dest) ∧
    ¬(pmLt ⟨["s1"], ["a"]⟩ ⟨["s2"], ["b"]⟩ = true ∧
      pmLt ⟨["s2"], ["b"]⟩ ⟨["s1"], ["a"]⟩ = true) ∧
    ¬(pmLt ⟨["s1"], ["a"]⟩ ⟨["s2"], ["b"]⟩ = true ∧
      pname (PathMapping.mk ["s1"] ["a"]).dest = pname (PathMapping.mk ["s2"] ["b"]).dest) ∧
    ¬(pmLt ⟨["s2"], ["b"]⟩ ⟨["s1"], ["a"]⟩ = true ∧
      pname (PathMapping.mk ["s1"] ["a"]).dest = pname (PathMapping.mk ["s2"] ["b"]).dest) :=
  pmLt_trichotomy ⟨["s1"], ["a"]⟩ ⟨["s2"], ["b"]⟩
